import Mathlib

/-!
# Verification of the Tag Generation Engine

Shallow embedding of `SophisticatedBedrockTagGenerator` (the tag-generation
engine of the bookmark bot) and proofs about the properties its
specification claims.

External collaborators — the Bedrock text service, the tag-corpus store,
the `fuzzball` similarity function, the `wink-lemmatizer` lemmatizer and
the JavaScript `JSON.parse` on extracted bracket regions — are modelled as
components of an explicit environment `Env`.  The two Bedrock calls made
during one `generateTags` invocation are modelled by their observable
outcome (`CallOutcome`); since every theorem quantifies over the
environment, this covers every possible service behaviour.

All numeric scores are JavaScript numbers holding sums of the integer
boosts 15/12/8/5 and fuzzy scores `similarity / 10`; they are embedded as
rationals (`ℚ`), which is exact for these values.
-/

namespace TagEngine

/-- JavaScript `\s` on the ASCII range: space, tab, LF, VT, FF, CR.
(Unicode space characters also match `\s` in JS; they never occur in the
character sets the engine splits on and are irrelevant to the claims.) -/
def jsWhitespace (c : Char) : Bool :=
  c.toNat = 32 || c.toNat = 9 || c.toNat = 10 || c.toNat = 11 || c.toNat = 12 || c.toNat = 13

/-- The split character class of `extractKeywords`, from the source regex
(backslash-s, slash, dash, underscore, period, comma, bang, question mark,
parentheses, colon, inside one character class).  Inside a character class
the sequence slash, dash, underscore is a RANGE from
`'/'` (0x2F = 47) to `'_'` (0x5F = 95); the further literals are
`.` `,` `!` `?` `(` `)` `:`.  In particular the dash `'-'` (0x2D) is NOT
in the class, while digits, `:` `;` `<` `=` `>` `?` `@`, uppercase
letters and `[` `\` `]` `^` `_` are. -/
def isSplitChar (c : Char) : Bool :=
  jsWhitespace c
  || (47 ≤ c.toNat && c.toNat ≤ 95)   -- the range '/' .. '_'
  || c.toNat = 46                      -- '.'
  || c.toNat = 44                      -- ','
  || c.toNat = 33                      -- '!'
  || c.toNat = 63                      -- '?'
  || c.toNat = 40                      -- '('
  || c.toNat = 41                      -- ')'
  || c.toNat = 58                      -- ':'

/-- JavaScript `toLowerCase()` on the ASCII range (the engine's tags and
keywords are ASCII): maps each character through `Char.toLower`. -/
def strLower (s : String) : String :=
  String.mk (s.data.map Char.toLower)

/-- JavaScript `trim()`: strips leading and trailing whitespace. -/
def strTrim (s : String) : String :=
  String.mk (((s.data.dropWhile jsWhitespace).reverse.dropWhile jsWhitespace).reverse)

/-- The stop word list of `extractKeywords`, verbatim from the source. -/
def stopWords : List String :=
  ["the", "and", "for", "are", "but", "not", "you", "all", "can", "had",
   "her", "was", "one", "our", "out", "day", "get", "has", "him", "his",
   "how", "its", "may", "new", "now", "old", "see", "two", "who", "boy",
   "did", "does", "let", "put", "say", "she", "too", "use"]

/-- JavaScript `word.match(/^\d+$/)` is non-null: non-empty and all digits. -/
def isNumericToken (w : String) : Bool :=
  w ≠ "" && w.data.all (fun c => 48 ≤ c.toNat && c.toNat ≤ 57)

/-- `extractKeywords` from the source: lowercase, split on the class
`isSplitChar`, drop tokens of length ≤ 2, stop words, and purely
numeric tokens.  `List.splitOnP` splits at every separator character
where the source regex collapses runs of separators; the two differ only
in empty fragments, all of which the length filter removes. -/
def extractKeywords (text : String) : List String :=
  (((( (strLower text).data.splitOnP isSplitChar).map (fun cs => String.mk cs)).filter
      (fun w => 2 < w.length)).filter
      (fun w => !stopWords.contains w)).filter
      (fun w => !isNumericToken w)

/-- JavaScript value as far as the engine inspects it: a string, or
anything else (`typeof tag === 'string'` is the only test applied). -/
inductive JSVal
  | str (s : String)
  | other
deriving DecidableEq

deriving instance DecidableEq for Except

/-- Observable outcome of one Bedrock `InvokeModel` call, following the
branches of the source: the send throws; `response.body` is absent;
`JSON.parse` of the body throws; `responseBody.content[0]?.text` is
falsy; or a generated text is obtained. -/
inductive CallOutcome
  | throw
  | noBody
  | badBodyJson
  | noText
  | text (t : String)
deriving DecidableEq

/-- The environment: the external collaborators of one `generateTags`
invocation.  `getExistingTags` is the tag-corpus store (may throw);
`draftCall` and `filterCall` are the outcomes of the first and second
Bedrock calls; `jsonParse` models JavaScript `JSON.parse` applied to an
extracted `[...]` region (`none` = the parse throws; a successful parse
of such a region is necessarily an array); `fuzzSimilarity` models
`fuzz.ratio`; the three lemma functions model `wink-lemmatizer`. -/
structure Env where
  getExistingTags : String → Except String (List String)
  draftCall : CallOutcome
  filterCall : CallOutcome
  jsonParse : String → Option (List JSVal)
  fuzzSimilarity : String → String → ℚ
  lemmaNoun : String → String
  lemmaVerb : String → String
  lemmaAdjective : String → String

/-- JavaScript `s.includes(sub)`: `sub` occurs as a contiguous substring. -/
def strIncludes (s sub : String) : Bool :=
  decide (sub.data <:+: s.data)

/-- `isGrammaticalVariation` from the source: equal words match; otherwise
some lemma (noun/verb/adjective) of the lowercased first word equals some
lemma of the lowercased second word. -/
def isGrammaticalVariation (env : Env) (word1 word2 : String) : Bool :=
  if word1 = word2 then true
  else
    let w1 := strLower word1
    let w2 := strLower word2
    let lemmas1 := [env.lemmaNoun w1, env.lemmaVerb w1, env.lemmaAdjective w1]
    let lemmas2 := [env.lemmaNoun w2, env.lemmaVerb w2, env.lemmaAdjective w2]
    lemmas1.any (fun l1 => lemmas2.contains l1)

/-- The four accumulating match types of the scorer. -/
inductive ExactType
  | perfect
  | grammaticalVariation
  | keywordInTag
  | tagInKeyword
deriving DecidableEq

/-- Score boost of each accumulating match type, from the source. -/
def ExactType.boost : ExactType → ℚ
  | .perfect => 15
  | .grammaticalVariation => 12
  | .keywordInTag => 8
  | .tagInKeyword => 5

/-- One `logger.debug` event of the scorer: either an accumulating match
(`hit`, logging old and new score) or a fuzzy match (logging similarity
and assigned score), exactly the two debug sites of the source. -/
inductive ScoreEvent
  | hit (mt : ExactType) (keyword tag : String) (oldScore newScore : ℚ)
  | fuzzy (keyword tag : String) (similarity score : ℚ)
deriving DecidableEq

def ScoreEvent.tag : ScoreEvent → String
  | .hit _ _ t _ _ => t
  | .fuzzy _ t _ _ => t

def ScoreEvent.newVal : ScoreEvent → ℚ
  | .hit _ _ _ _ ns => ns
  | .fuzzy _ _ _ sc => sc

def ScoreEvent.isFuzzy : ScoreEvent → Bool
  | .hit _ _ _ _ _ => false
  | .fuzzy _ _ _ _ => true

/-- `tagScores.get(tag)` on a JavaScript `Map` modelled as an ordered
association list. -/
def mapGet (m : List (String × ℚ)) (k : String) : Option ℚ :=
  (m.find? (fun p => p.1 = k)).map Prod.snd

/-- `tagScores.set(tag, v)`: updating an existing key keeps its insertion
position, a new key is appended, as on a JavaScript `Map` (whose keys are
unique; the association list built through `mapSet` keeps them unique). -/
def mapSet (m : List (String × ℚ)) (k : String) (v : ℚ) : List (String × ℚ) :=
  match m with
  | [] => [(k, v)]
  | p :: rest => if p.1 = k then (k, v) :: rest else p :: mapSet rest k v

/-- The match-type selection of the exact-match loop: the `if/else if`
chain of the source, in order. -/
def matchTypeOf (env : Env) (keyword tag : String) : Option ExactType :=
  if keyword = tag then some .perfect
  else if isGrammaticalVariation env keyword tag then some .grammaticalVariation
  else if 2 < keyword.length && strIncludes tag keyword then some .keywordInTag
  else if 2 < tag.length && strIncludes keyword tag then some .tagInKeyword
  else none

/-- Scorer state: the `tagScores` map plus the chronological trace of
debug events. -/
abbrev SState := List (String × ℚ) × List ScoreEvent

/-- Body of the exact-match loop for one `(keyword, tag)` pair: the
`oldScore` read, the boost chain, the `set` and the debug log. -/
def scoreStepTag (env : Env) (keyword : String) (st : SState) (tag : String) : SState :=
  match matchTypeOf env keyword tag with
  | none => st
  | some mt =>
    (mapSet st.1 tag ((mapGet st.1 tag).getD 0 + mt.boost),
     st.2 ++ [ScoreEvent.hit mt keyword tag ((mapGet st.1 tag).getD 0)
       ((mapGet st.1 tag).getD 0 + mt.boost)])

/-- Body of the fuzzy loop for one `(keyword, tag)` pair: only when the
tag has no score yet, and only when similarity ≥ 80; assigns
`similarity / 10`. -/
def fuzzyStepTag (env : Env) (keyword : String) (st : SState) (tag : String) : SState :=
  if (mapGet st.1 tag).isSome then st
  else if 80 ≤ env.fuzzSimilarity keyword tag then
    (mapSet st.1 tag (env.fuzzSimilarity keyword tag / 10),
     st.2 ++ [ScoreEvent.fuzzy keyword tag (env.fuzzSimilarity keyword tag)
       (env.fuzzSimilarity keyword tag / 10)])
  else st

/-- Processing of one keyword: the exact-match loop over all existing
tags, then the fuzzy loop over all existing tags. -/
def scoreKeyword (env : Env) (existingTags : List String) (st : SState) (keyword : String) :
    SState :=
  existingTags.foldl (fuzzyStepTag env keyword)
    (existingTags.foldl (scoreStepTag env keyword) st)

/-- The full score-map construction of `findTagsByKeywordsWithScores`
(the two nested loops), returning the final map and the event trace. -/
def tagScoresTrace (env : Env) (keywords existingTags : List String) : SState :=
  keywords.foldl (scoreKeyword env existingTags) ([], [])

/-- Descending comparison used for `sort(([, a], [, b]) => b - a)`:
JavaScript `Array.prototype.sort` is stable, so this is a stable
descending sort by score. -/
def scoreDescLE (a b : String × ℚ) : Bool :=
  decide (b.2 ≤ a.2)

/-- Corpus fetch of the scorer: empty when `teamId` is absent; a store
failure is caught and treated as an empty corpus. -/
def fetchExistingTags (env : Env) (teamId : Option String) : List String :=
  match teamId with
  | none => []
  | some tid =>
    match env.getExistingTags tid with
    | .ok tags => tags
    | .error _ => []

/-- `findTagsByKeywordsWithScores` from the source: keywords from
`title ++ " " ++ description`, corpus fetch, score-map construction, then
stable descending sort and the 6 best matches. -/
def findTagsByKeywordsWithScores (env : Env) (title description : String)
    (teamId : Option String) : List (String × ℚ) :=
  ((tagScoresTrace env (extractKeywords (title ++ " " ++ description))
    (fetchExistingTags env teamId)).1.mergeSort scoreDescLE).take 6

/-- The regex match `generatedText.match(/\[.*\]/s)`: with a greedy `.*`
and dot-matches-newline, the match runs from the first `'['` that has
some `']'` after it to the last `']'` of the whole string; `none` when no
such pair exists. -/
def bracketMatch (s : String) : Option String :=
  let cs := s.data
  let n := cs.length
  match ((List.range n).filter (fun j => cs.getD j ' ' = ']')).getLast? with
  | none => none
  | some jmax =>
    match (List.range n).find? (fun i => cs.getD i ' ' = '[' && decide (i < jmax)) with
    | none => none
    | some i => some (String.mk ((cs.drop i).take (jmax - i + 1)))

/-- `typeof tag === 'string'` filter over a parsed JSON array. -/
def jsToStrings (xs : List JSVal) : List String :=
  xs.filterMap (fun v => match v with | .str s => some s | .other => none)

/-- Tag cleaning of the draft stage: keep strings, lowercase and trim,
keep non-empty tags of at most 50 characters, cap at 10. -/
def cleanTags (xs : List JSVal) : List String :=
  (((jsToStrings xs).map (fun t => strTrim (strLower t))).filter
      (fun t => 0 < t.length && t.length ≤ 50)).take 10

/-- `generateWithLLM` from the source.  Transport errors, an empty body,
an unparsable body and a missing text all surface as a thrown
`BedrockError` (the catch block rethrows `BedrockError`s and wraps
everything else).  A reply text without a bracketed region yields `[]`
non-fatally; a bracketed region that `JSON.parse` rejects is thrown from
inside the `try` and leaves the call as a wrapped fatal error. -/
def generateWithLLM (env : Env) : Except String (List String) :=
  match env.draftCall with
  | .throw => .error "Failed to generate tags: service error"
  | .noBody => .error "Empty response body from Bedrock"
  | .badBodyJson => .error "Failed to generate tags: bad response JSON"
  | .noText => .error "No text content in Bedrock response"
  | .text t =>
    match bracketMatch t with
    | none => .ok []
    | some region =>
      match env.jsonParse region with
      | none => .error "Failed to generate tags: JSON parse error"
      | some arr => .ok (cleanTags arr)

/-- `filterTagsBySpecificity` from the source: empty input returned as
is; tags present in `existingMatches` are protected and only the rest is
sent for filtering (no call when there are no candidates); every failure
of the second call returns the input unchanged; on success the result is
the protected tags followed by the string elements of the parsed array,
falling back to the input only when that concatenation is empty. -/
def filterTagsBySpecificity (env : Env) (tags existingMatches : List String) : List String :=
  if tags.isEmpty then tags
  else if (tags.filter (fun t => !existingMatches.contains t)).isEmpty then tags
  else
    match env.filterCall with
    | .throw => tags
    | .noBody => tags
    | .badBodyJson => tags
    | .noText => tags
    | .text t =>
      match bracketMatch t with
      | none => tags
      | some region =>
        match env.jsonParse region with
        | none => tags
        | some arr =>
          if (tags.filter (fun t => existingMatches.contains t) ++ jsToStrings arr).isEmpty
          then tags
          else tags.filter (fun t => existingMatches.contains t) ++ jsToStrings arr

/-- JavaScript `xs.slice(0, e)` with a possibly negative end index:
a negative `e` counts from the end of the array, clamped at 0. -/
def jsSliceTo (xs : List String) (e : Int) : List String :=
  if 0 ≤ e then xs.take e.toNat else xs.take (xs.length - (-e).toNat)

/-- `addHighScoringExistingTags` from the source: existing-corpus matches
with score ≥ 15 that are not already present, stably sorted by descending
score, appended via `slice(0, 6 - currentTags.length)`. -/
def addHighScoringExistingTags (currentTags : List String)
    (existingMatchesWithScores : List (String × ℚ)) : List String :=
  currentTags ++ jsSliceTo
    ((((existingMatchesWithScores.filter (fun p => decide (15 ≤ p.2))).filter
        (fun p => !currentTags.contains p.1)).mergeSort scoreDescLE).map Prod.fst)
    (6 - (currentTags.length : Int))

/-- The options bag of `generateTags`. -/
structure GenOptions where
  url : Option String
  title : Option String
  description : Option String
  teamId : Option String
  manualTags : Option (List String)

/-- `generateTagsInternal` from the source: lexical scoring, draft
generation (fatal on service errors), specificity filtering, hybrid
reconciliation. -/
def generateTagsInternal (env : Env) (options : GenOptions) : Except String (List String) :=
  match generateWithLLM env with
  | .error e => .error e
  | .ok initialTags =>
    .ok (addHighScoringExistingTags
      (filterTagsBySpecificity env initialTags
        ((findTagsByKeywordsWithScores env (options.title.getD "")
          (options.description.getD "") options.teamId).map Prod.fst))
      (findTagsByKeywordsWithScores env (options.title.getD "")
        (options.description.getD "") options.teamId))

/-- `generateTags` from the source: with a non-empty `manualTags` the
pipeline still runs and the result is `manualTags ++ generated` cut to 8
(`slice(0, 8)`), without any deduplication; otherwise the pipeline output
is returned directly. -/
def generateTags (env : Env) (options : GenOptions) : Except String (List String) :=
  match options.manualTags with
  | some ms =>
    if ms.isEmpty then generateTagsInternal env options
    else
      match generateTagsInternal env options with
      | .error e => .error e
      | .ok generated => .ok ((ms ++ generated).take 8)
  | none => generateTagsInternal env options

/-- The last score recorded for tag `t` in a chronological event trace
(the value a `Map`-based accumulator would hold for `t`). -/
def lastScoreOf (evs : List ScoreEvent) (t : String) : Option ℚ :=
  ((evs.filter (fun e => e.tag = t)).getLast?).map ScoreEvent.newVal

/-- Well-formedness of one scorer event with respect to the trace `pre`
of events logged before it: an accumulating `hit` adds its boost to the
tag's previous score; a `fuzzy` event records the similarity reported by
the environment, requires similarity ≥ 80, assigns `similarity / 10`, and
can only happen for a tag no earlier event has scored. -/
def OkEvent (env : Env) (pre : List ScoreEvent) : ScoreEvent → Prop
  | .hit mt _ t old new => old = (lastScoreOf pre t).getD 0 ∧ new = old + mt.boost
  | .fuzzy kw t sim sc =>
      sim = env.fuzzSimilarity kw t ∧ 80 ≤ sim ∧ sc = sim / 10 ∧ ∀ e ∈ pre, e.tag ≠ t

/-- Every event of the trace is well-formed with respect to the events
before it, relative to an already-logged prefix `pre`. -/
def CoherentAux (env : Env) : List ScoreEvent → List ScoreEvent → Prop
  | _, [] => True
  | pre, e :: rest => OkEvent env pre e ∧ CoherentAux env (pre ++ [e]) rest

/-- A trace is coherent when every event is well-formed with respect to
the events logged before it. -/
def Coherent (env : Env) (evs : List ScoreEvent) : Prop :=
  CoherentAux env [] evs

/-- The scorer state invariant: the score map has unique keys, holds for
each tag exactly the last score its trace recorded, and the trace is
coherent. -/
def StInv (env : Env) (st : SState) : Prop :=
  (st.1.map Prod.fst).Nodup ∧ (∀ t, mapGet st.1 t = lastScoreOf st.2 t) ∧
    Coherent env st.2

/-- The event is a fuzzy-match event for tag `t`. -/
def isFuzzyOn (t : String) (e : ScoreEvent) : Bool :=
  e.isFuzzy && e.tag = t

/-- The event is a perfect-match event for tag `t`. -/
def isPerfectOn (t : String) (e : ScoreEvent) : Bool :=
  match e with
  | .hit ExactType.perfect _ tg _ _ => tg = t
  | _ => false

/-- Tag `t` was scored, and only ever by the fuzzy matcher, in trace
`evs`. -/
def FuzzyOnly (evs : List ScoreEvent) (t : String) : Prop :=
  (∃ e ∈ evs, e.tag = t) ∧ ∀ e ∈ evs, e.tag = t → e.isFuzzy = true

/-- All the failure shapes of the specificity-filter service call on
which the source returns its input unchanged: transport error, missing
body, unparsable body, missing text, text without a bracketed region, or
a bracketed region `JSON.parse` rejects. -/
def FilterCallFailed (env : Env) : Prop :=
  env.filterCall = .throw ∨ env.filterCall = .noBody ∨
  env.filterCall = .badBodyJson ∨ env.filterCall = .noText ∨
  (∃ t, env.filterCall = .text t ∧ bracketMatch t = none) ∨
  (∃ t r, env.filterCall = .text t ∧ bracketMatch t = some r ∧ env.jsonParse r = none)

/-- The value of `filteredTags` inside `generateTagsInternal`: the output
of the specificity-filter stage (errors of the draft stage propagate). -/
def pipelineFilteredTags (env : Env) (options : GenOptions) : Except String (List String) :=
  (generateWithLLM env).map (fun initialTags =>
    filterTagsBySpecificity env initialTags
      ((findTagsByKeywordsWithScores env (options.title.getD "")
        (options.description.getD "") options.teamId).map Prod.fst))

/-- `options.manualTags` is present and non-empty (the JavaScript
truthiness test of the source). -/
def ManualPresent (options : GenOptions) : Prop :=
  ∃ ms, options.manualTags = some ms ∧ ms ≠ []

/-- Modelled from the SPEC'S words for comparison (claim C6): the split
set the specification describes, exactly space-like whitespace, slash,
dash, underscore, period, comma, bang, question mark and the two
parentheses. -/
def isSplitCharSpec (c : Char) : Bool :=
  jsWhitespace c
  || c.toNat = 47                      -- slash
  || c.toNat = 45                      -- dash
  || c.toNat = 95                      -- underscore
  || c.toNat = 46                      -- period
  || c.toNat = 44                      -- comma
  || c.toNat = 33                      -- bang
  || c.toNat = 63                      -- question mark
  || c.toNat = 40                      -- open parenthesis
  || c.toNat = 41                      -- close parenthesis

/-- Keyword extraction as the SPEC describes it (claim C6): identical to
`extractKeywords` except for the split set. -/
def extractKeywordsSpec (text : String) : List String :=
  (((( (strLower text).data.splitOnP isSplitCharSpec).map (fun cs => String.mk cs)).filter
      (fun w => 2 < w.length)).filter
      (fun w => !stopWords.contains w)).filter
      (fun w => !isNumericToken w)

/-- The split set `extractKeywords` actually uses, spelled out as the
amended claim states it: whitespace; slash; the decimal digits; the
characters colon through at-sign; the uppercase letters; the characters
opening-square-bracket through underscore; period, comma, bang, question
mark and the parentheses.  The dash is absent. -/
def isSplitCharAmended (c : Char) : Bool :=
  jsWhitespace c
  || c.toNat = 47                      -- slash
  || (48 ≤ c.toNat && c.toNat ≤ 57)   -- digits 0-9
  || (58 ≤ c.toNat && c.toNat ≤ 64)   -- colon through at-sign
  || (65 ≤ c.toNat && c.toNat ≤ 90)   -- uppercase letters
  || (91 ≤ c.toNat && c.toNat ≤ 95)   -- square brackets, backslash, caret, underscore
  || c.toNat = 46 || c.toNat = 44 || c.toNat = 33 || c.toNat = 63
  || c.toNat = 40 || c.toNat = 41 || c.toNat = 58

/-- Keyword extraction as the amended claim C6 states it. -/
def extractKeywordsAmended (text : String) : List String :=
  (((( (strLower text).data.splitOnP isSplitCharAmended).map (fun cs => String.mk cs)).filter
      (fun w => 2 < w.length)).filter
      (fun w => !stopWords.contains w)).filter
      (fun w => !isNumericToken w)

/-- The score map and event trace produced while scoring one request. -/
def scorerState (env : Env) (title description : String) (teamId : Option String) : SState :=
  tagScoresTrace env (extractKeywords (title ++ " " ++ description))
    (fetchExistingTags env teamId)

/-- A benign concrete environment: empty corpus, failing service calls,
similarity 0 everywhere, identity lemmatizer. -/
def baseEnv : Env where
  getExistingTags := fun _ => .ok []
  draftCall := .throw
  filterCall := .throw
  jsonParse := fun _ => none
  fuzzSimilarity := fun _ _ => 0
  lemmaNoun := fun w => w
  lemmaVerb := fun w => w
  lemmaAdjective := fun w => w

/-- Environment for claim C1: the draft call produces the single tag
"react", the filter call fails (so the draft passes through unchanged). -/
def envC1 : Env :=
  { baseEnv with
    draftCall := .text "[\"react\"]"
    jsonParse := fun s => if s = "[\"react\"]" then some [JSVal.str "react"] else none }

/-- Options for claim C1: manual tag "React", nothing else. -/
def optsC1 : GenOptions :=
  ⟨none, none, none, none, some ["React"]⟩

/-- Options with no manual tags and no other fields. -/
def optsPlain : GenOptions :=
  ⟨none, none, none, none, none⟩

/-- Environment for claim C5: the draft call produces seven tags and the
filter call fails, so all seven pass through the pipeline. -/
def envC5 : Env :=
  { baseEnv with
    draftCall := .text "[\"t1\",\"t2\",\"t3\",\"t4\",\"t5\",\"t6\",\"t7\"]"
    jsonParse := fun s =>
      if s = "[\"t1\",\"t2\",\"t3\",\"t4\",\"t5\",\"t6\",\"t7\"]" then
        some [JSVal.str "t1", JSVal.str "t2", JSVal.str "t3", JSVal.str "t4",
              JSVal.str "t5", JSVal.str "t6", JSVal.str "t7"]
      else none }

/-- Environment whose filter call returns a syntactically valid empty
JSON array (claim C3). -/
def envC3 : Env :=
  { baseEnv with
    filterCall := .text "[]"
    jsonParse := fun s => if s = "[]" then some [] else none }

/-- Environment whose draft call returns text with a bracketed region
that is not valid JSON (claim C4): `JSON.parse` throws on it. -/
def envC4 : Env :=
  { baseEnv with draftCall := .text "result: [not valid json]" }

/-- Environment whose draft call returns text without any bracketed
region (claim C4 witness). -/
def envNoBracket : Env :=
  { baseEnv with draftCall := .text "Sorry, I cannot help" }

/-- Environment with manual-tag options and a draft reply without a
bracketed region (claim C5 witness). -/
def optsManualM : GenOptions :=
  ⟨none, none, none, none, some ["m"]⟩

/-- Scenario A environment: corpus ["react", "hooks"] for team "T". -/
def envA : Env :=
  { baseEnv with
    getExistingTags := fun tid => if tid = "T" then .ok ["react", "hooks"] else .ok [] }

/-- Environment whose corpus fetch always throws (claim C9 witness). -/
def envStoreDown : Env :=
  { baseEnv with getExistingTags := fun _ => .error "database unavailable" }

/-- Environment where the only match for keyword "react" against corpus
tag "reakt" is a fuzzy one of similarity 85 (claim C10 witness). -/
def envFuzzy : Env :=
  { baseEnv with
    getExistingTags := fun tid => if tid = "T" then .ok ["reakt"] else .ok []
    fuzzSimilarity := fun k u => if k = "react" ∧ u = "reakt" then 85 else 0 }

end TagEngine

namespace TagEngine

theorem isSplitChar_eq_amended (c : Char) : isSplitChar c = isSplitCharAmended c := by
  unfold isSplitChar isSplitCharAmended
  cases hw : jsWhitespace c
  · simp only [hw, Bool.false_or]
    rw [Bool.eq_iff_iff]
    simp only [Bool.or_eq_true, Bool.and_eq_true, decide_eq_true_eq]
    omega
  · simp [hw]

theorem extractKeywords_eq_amended (s : String) :
    extractKeywords s = extractKeywordsAmended s := by
  unfold extractKeywords extractKeywordsAmended
  rw [funext isSplitChar_eq_amended]

/-- C6 (counterexample): `extractKeywords` does not split on the set the
claim states.  On "machine-learning web3" the code keeps
"machine-learning" whole (the dash is not a split character) and splits
"web3" at the digit (digits fall in the regex range and are split
characters), while the claim's split set yields
["machine", "learning", "web3"]. -/
theorem extractKeywords_split_counterexample :
    extractKeywords "machine-learning web3" = ["machine-learning", "web"] ∧
    extractKeywordsSpec "machine-learning web3" = ["machine", "learning", "web3"] ∧
    extractKeywords "machine-learning web3" ≠
      extractKeywordsSpec "machine-learning web3" := by
  refine ⟨by decide, by decide, by decide⟩

theorem mapGet_cons (p : String × ℚ) (l : List (String × ℚ)) (t : String) :
    mapGet (p :: l) t = if p.1 = t then some p.2 else mapGet l t := by
  unfold mapGet
  rw [List.find?_cons]
  by_cases h : p.1 = t <;> simp [h]

theorem mapGet_mapSet (k : String) (v : ℚ) (t : String) :
    ∀ m, mapGet (mapSet m k v) t = if k = t then some v else mapGet m t := by
  intro m
  induction m with
  | nil =>
    by_cases h : k = t <;> simp [mapSet, mapGet_cons, mapGet, h]
  | cons p rest ih =>
    simp only [mapSet]
    by_cases h1 : p.1 = k
    · simp only [h1, if_true]
      rw [mapGet_cons, mapGet_cons]
      by_cases h2 : k = t
      · simp [h2]
      · have hp : ¬ p.1 = t := by rw [h1]; exact h2
        simp [hp, h2]
    · simp only [h1, if_false]
      rw [mapGet_cons, mapGet_cons]
      by_cases h2 : p.1 = t
      · have hk : ¬ k = t := by intro h; rw [h] at h1; exact h1 h2
        simp [h2, hk]
      · simp [h2, ih]

theorem mem_keys_mapSet (a k : String) (v : ℚ) :
    ∀ m, a ∈ (mapSet m k v).map Prod.fst → a = k ∨ a ∈ m.map Prod.fst := by
  intro m
  induction m with
  | nil => simp [mapSet]
  | cons p rest ih =>
    simp only [mapSet]
    by_cases h1 : p.1 = k
    · simp only [h1, if_true, List.map_cons, List.mem_cons]
      intro h
      rcases h with h | h
      · exact Or.inl h
      · exact Or.inr (Or.inr h)
    · simp only [h1, if_false, List.map_cons, List.mem_cons]
      intro h
      rcases h with h | h
      · exact Or.inr (Or.inl h)
      · rcases ih h with h | h
        · exact Or.inl h
        · exact Or.inr (Or.inr h)

theorem keys_nodup_mapSet (k : String) (v : ℚ) :
    ∀ m, (m.map Prod.fst).Nodup → ((mapSet m k v).map Prod.fst).Nodup := by
  intro m
  induction m with
  | nil => simp [mapSet]
  | cons p rest ih =>
    intro hnd
    rw [List.map_cons, List.nodup_cons] at hnd
    obtain ⟨hp, hrest⟩ := hnd
    by_cases h1 : p.1 = k
    · simp only [mapSet, h1, if_true, List.map_cons, List.nodup_cons]
      refine ⟨?_, hrest⟩
      rw [← h1]; exact hp
    · simp only [mapSet, h1, if_false, List.map_cons, List.nodup_cons]
      refine ⟨?_, ih hrest⟩
      intro hmem
      rcases mem_keys_mapSet p.1 k v rest hmem with h | h
      · exact h1 h
      · exact hp h

theorem mapGet_of_mem_nodup (t : String) (v : ℚ) :
    ∀ m, (m.map Prod.fst).Nodup → (t, v) ∈ m → mapGet m t = some v := by
  intro m
  induction m with
  | nil => simp
  | cons p rest ih =>
    intro hnd hmem
    rw [List.map_cons, List.nodup_cons] at hnd
    obtain ⟨hp, hrest⟩ := hnd
    rw [List.mem_cons] at hmem
    rcases hmem with h | h
    · rw [← h, mapGet_cons]; simp
    · rw [mapGet_cons]
      have hpt : ¬ p.1 = t := by
        intro he
        exact hp (by rw [he]; exact List.mem_map_of_mem Prod.fst h)
      simp [hpt, ih hrest h]

theorem mem_of_mapGet_eq_some (m : List (String × ℚ)) (t : String) (v : ℚ)
    (h : mapGet m t = some v) : (t, v) ∈ m := by
  unfold mapGet at h
  cases hf : m.find? (fun p => p.1 = t) with
  | none => rw [hf] at h; simp at h
  | some p =>
    rw [hf] at h
    simp only [Option.map_some'] at h
    have hmem := List.mem_of_find?_eq_some hf
    have hp := List.find?_some hf
    simp only [decide_eq_true_eq] at hp
    have hpv : p = (t, v) := Prod.ext hp (Option.some.inj h)
    rw [← hpv]; exact hmem

theorem lastScoreOf_snoc (evs : List ScoreEvent) (e : ScoreEvent) (t : String) :
    lastScoreOf (evs ++ [e]) t =
      if e.tag = t then some e.newVal else lastScoreOf evs t := by
  unfold lastScoreOf
  rw [List.filter_append]
  by_cases h : e.tag = t
  · simp [List.filter_cons, h, List.getLast?_concat]
  · simp [List.filter_cons, h]

theorem lastScoreOf_eq_none_iff (evs : List ScoreEvent) (t : String) :
    lastScoreOf evs t = none ↔ ∀ e ∈ evs, e.tag ≠ t := by
  unfold lastScoreOf
  rw [Option.map_eq_none']
  constructor
  · intro h e hmem htag
    have : e ∈ evs.filter (fun e => e.tag = t) := by
      rw [List.mem_filter]; exact ⟨hmem, by simp [htag]⟩
    rw [List.getLast?_eq_none_iff] at h
    rw [h] at this
    exact absurd this (List.not_mem_nil e)
  · intro h
    rw [List.getLast?_eq_none_iff]
    rw [List.filter_eq_nil_iff]
    intro e hmem
    simp [h e hmem]

theorem coherentAux_snoc (env : Env) (evs : List ScoreEvent) :
    ∀ pre e, CoherentAux env pre evs → OkEvent env (pre ++ evs) e →
      CoherentAux env pre (evs ++ [e]) := by
  induction evs with
  | nil =>
    intro pre e _ he
    exact ⟨by simpa using he, trivial⟩
  | cons x rest ih =>
    intro pre e h he
    obtain ⟨hx, hrest⟩ := h
    refine ⟨hx, ih (pre ++ [x]) e hrest ?_⟩
    rw [List.append_assoc]
    simpa using he

theorem coherentAux_decomp (env : Env) (evs : List ScoreEvent) :
    ∀ pre l e r, CoherentAux env pre evs → evs = l ++ e :: r →
      OkEvent env (pre ++ l) e := by
  induction evs with
  | nil =>
    intro pre l e r _ heq
    exact absurd heq (by simp)
  | cons x rest ih =>
    intro pre l e r h heq
    obtain ⟨hx, hrest⟩ := h
    cases l with
    | nil =>
      rw [List.nil_append] at heq
      rw [List.cons.injEq] at heq
      rw [List.append_nil, ← heq.1]
      exact hx
    | cons y l2 =>
      rw [List.cons_append, List.cons.injEq] at heq
      have h2 := ih (pre ++ [x]) l2 e r hrest heq.2
      rw [List.append_assoc, List.singleton_append] at h2
      rw [heq.1] at h2
      exact h2

theorem stInv_scoreStepTag (env : Env) (kw : String) (st : SState) (tag : String)
    (h : StInv env st) : StInv env (scoreStepTag env kw st tag) := by
  obtain ⟨hnd, hget, hcoh⟩ := h
  unfold scoreStepTag
  cases hmt : matchTypeOf env kw tag with
  | none => exact ⟨hnd, hget, hcoh⟩
  | some mt =>
    simp only
    refine ⟨keys_nodup_mapSet _ _ _ hnd, ?_, ?_⟩
    · intro t
      rw [mapGet_mapSet, lastScoreOf_snoc]
      simp only [ScoreEvent.tag, ScoreEvent.newVal]
      by_cases ht : tag = t
      · simp [ht]
      · simp [ht, hget t]
    · refine coherentAux_snoc env st.2 [] _ hcoh ?_
      rw [List.nil_append]
      exact ⟨by rw [hget tag], rfl⟩

theorem stInv_fuzzyStepTag (env : Env) (kw : String) (st : SState) (tag : String)
    (h : StInv env st) : StInv env (fuzzyStepTag env kw st tag) := by
  obtain ⟨hnd, hget, hcoh⟩ := h
  unfold fuzzyStepTag
  cases hno : mapGet st.1 tag with
  | some v =>
    rw [if_pos (by rfl)]
    exact ⟨hnd, hget, hcoh⟩
  | none =>
    rw [if_neg (by simp)]
    by_cases h80 : 80 ≤ env.fuzzSimilarity kw tag
    · rw [if_pos h80]
      refine ⟨keys_nodup_mapSet _ _ _ hnd, ?_, ?_⟩
      · intro t
        rw [mapGet_mapSet, lastScoreOf_snoc]
        simp only [ScoreEvent.tag, ScoreEvent.newVal]
        by_cases ht : tag = t
        · simp [ht]
        · simp [ht, hget t]
      · refine coherentAux_snoc env st.2 [] _ hcoh ?_
        rw [List.nil_append]
        refine ⟨rfl, h80, rfl, ?_⟩
        rw [← lastScoreOf_eq_none_iff, ← hget tag]
        exact hno
    · rw [if_neg h80]
      exact ⟨hnd, hget, hcoh⟩

theorem foldl_preserve {α β : Type} (P : β → Prop) (f : β → α → β)
    (hf : ∀ st a, P st → P (f st a)) :
    ∀ (l : List α) (st : β), P st → P (l.foldl f st) := by
  intro l
  induction l with
  | nil => intro st h; exact h
  | cons x rest ih => intro st h; exact ih (f st x) (hf st x h)

theorem stInv_scoreKeyword (env : Env) (corpus : List String) (st : SState) (kw : String)
    (h : StInv env st) : StInv env (scoreKeyword env corpus st kw) := by
  unfold scoreKeyword
  exact foldl_preserve _ _ (fun st a h => stInv_fuzzyStepTag env kw st a h) corpus _
    (foldl_preserve _ _ (fun st a h => stInv_scoreStepTag env kw st a h) corpus st h)

theorem stInv_tagScoresTrace (env : Env) (keywords corpus : List String) :
    StInv env (tagScoresTrace env keywords corpus) := by
  unfold tagScoresTrace
  refine foldl_preserve _ _ (fun st a h => stInv_scoreKeyword env corpus st a h) keywords _ ?_
  exact ⟨by simp, fun t => rfl, trivial⟩

theorem coherent_decomp (env : Env) (evs l r : List ScoreEvent) (e : ScoreEvent)
    (h : Coherent env evs) (heq : evs = l ++ e :: r) : OkEvent env l e := by
  have h2 := coherentAux_decomp env evs [] l e r h heq
  simpa using h2

theorem coherentAux_append (env : Env) :
    ∀ a pre b, CoherentAux env pre (a ++ b) →
      CoherentAux env pre a ∧ CoherentAux env (pre ++ a) b := by
  intro a
  induction a with
  | nil =>
    intro pre b h
    exact ⟨trivial, by simpa using h⟩
  | cons x rest ih =>
    intro pre b h
    obtain ⟨hx, hr⟩ := h
    obtain ⟨h1, h2⟩ := ih (pre ++ [x]) b hr
    refine ⟨⟨hx, h1⟩, ?_⟩
    rwa [List.append_assoc, List.singleton_append] at h2

theorem boost_pos (mt : ExactType) : 0 < mt.boost := by
  cases mt <;> norm_num [ExactType.boost]

theorem tag_of_isFuzzyOn (t : String) (e : ScoreEvent) (h : isFuzzyOn t e = true) :
    e.tag = t := by
  unfold isFuzzyOn at h
  rw [Bool.and_eq_true] at h
  exact of_decide_eq_true h.2

theorem coherentAux_no_fuzzy_after (env : Env) (t : String) :
    ∀ evs pre, CoherentAux env pre evs → (∃ x ∈ pre, ScoreEvent.tag x = t) →
      (evs.filter (isFuzzyOn t)).length = 0 := by
  intro evs
  induction evs with
  | nil => intro pre _ _; rfl
  | cons e rest ih =>
    intro pre h hex
    obtain ⟨he, hrest⟩ := h
    have hne : isFuzzyOn t e = false := by
      cases e with
      | hit mt kw tg old new => rfl
      | fuzzy kw tg sim sc =>
        obtain ⟨x, hx, hxt⟩ := hex
        by_cases htg : tg = t
        · exact absurd (hxt.trans htg.symm) (he.2.2.2 x hx)
        · unfold isFuzzyOn ScoreEvent.isFuzzy ScoreEvent.tag
          simp [htg]
    rw [List.filter_cons, hne]
    simp only [Bool.false_eq_true, if_false]
    obtain ⟨x, hx, hxt⟩ := hex
    exact ih (pre ++ [e]) hrest ⟨x, List.mem_append_left _ hx, hxt⟩

theorem coherentAux_fuzzy_count (env : Env) (t : String) :
    ∀ evs pre, CoherentAux env pre evs → (evs.filter (isFuzzyOn t)).length ≤ 1 := by
  intro evs
  induction evs with
  | nil => intro pre _; simp
  | cons e rest ih =>
    intro pre h
    obtain ⟨he, hrest⟩ := h
    rw [List.filter_cons]
    by_cases hf : isFuzzyOn t e = true
    · rw [if_pos hf]
      have h0 : (rest.filter (isFuzzyOn t)).length = 0 :=
        coherentAux_no_fuzzy_after env t rest (pre ++ [e]) hrest
          ⟨e, by simp, tag_of_isFuzzyOn t e hf⟩
      simp only [List.length_cons, h0]
      omega
    · simp only [hf, if_false]
      exact ih (pre ++ [e]) hrest

theorem coherentAux_last_mono (env : Env) (t : String) :
    ∀ evs pre, CoherentAux env pre evs → ∀ v, lastScoreOf pre t = some v →
      ∃ w, lastScoreOf (pre ++ evs) t = some w ∧ v ≤ w := by
  intro evs
  induction evs with
  | nil =>
    intro pre _ v hv
    exact ⟨v, by simpa using hv, le_refl v⟩
  | cons e rest ih =>
    intro pre h v hv
    obtain ⟨he, hrest⟩ := h
    have hstep : ∃ u, lastScoreOf (pre ++ [e]) t = some u ∧ v ≤ u := by
      by_cases ht : e.tag = t
      · cases e with
        | hit mt kw tg old new =>
          have htg : tg = t := ht
          refine ⟨old + mt.boost, ?_, ?_⟩
          · rw [lastScoreOf_snoc, if_pos ht, he.2]
            rfl
          · have hold : old = v := by
              rw [he.1, htg, hv]
              rfl
            have hb := boost_pos mt
            rw [hold]
            linarith
        | fuzzy kw tg sim sc =>
          exfalso
          have htg : tg = t := ht
          have hnone : lastScoreOf pre t = none := by
            rw [lastScoreOf_eq_none_iff]
            intro x hx
            rw [← htg]
            exact he.2.2.2 x hx
          rw [hnone] at hv
          cases hv
      · refine ⟨v, ?_, le_refl v⟩
        rw [lastScoreOf_snoc, if_neg ht]
        exact hv
    obtain ⟨u, hu, hvu⟩ := hstep
    obtain ⟨w, hw, huw⟩ := ih (pre ++ [e]) hrest u hu
    rw [List.append_assoc, List.singleton_append] at hw
    exact ⟨w, hw, le_trans hvu huw⟩

theorem coherentAux_last_nonneg (env : Env) (t : String) :
    ∀ evs pre, CoherentAux env pre evs →
      (∀ v, lastScoreOf pre t = some v → 0 ≤ v) →
      ∀ v, lastScoreOf (pre ++ evs) t = some v → 0 ≤ v := by
  intro evs
  induction evs with
  | nil =>
    intro pre _ hbase v hv
    exact hbase v (by simpa using hv)
  | cons e rest ih =>
    intro pre h hbase v hv
    obtain ⟨he, hrest⟩ := h
    refine ih (pre ++ [e]) hrest ?_ v (by rwa [List.append_assoc, List.singleton_append])
    intro u hu
    rw [lastScoreOf_snoc] at hu
    by_cases ht : e.tag = t
    · rw [if_pos ht] at hu
      cases e with
      | hit mt kw tg old new =>
        have htg : tg = t := ht
        have hu2 : old + mt.boost = u := by
          have h3 : ScoreEvent.newVal (ScoreEvent.hit mt kw tg old new) = u :=
            Option.some.inj hu
          rw [← he.2]
          exact h3
        have hold : 0 ≤ old := by
          rw [he.1, htg]
          cases hlast : lastScoreOf pre t with
          | none => simp
          | some x =>
            simp only [Option.getD_some]
            exact hbase x hlast
        have hb := boost_pos mt
        rw [← hu2]
        linarith
      | fuzzy kw tg sim sc =>
        have hu2 : sc = u := Option.some.inj hu
        have hsc : sc = sim / 10 := he.2.2.1
        have hsim : 80 ≤ sim := he.2.1
        rw [← hu2, hsc]
        linarith
    · rw [if_neg ht] at hu
      exact hbase u hu

theorem coherent_perfect_final (env : Env) (evs : List ScoreEvent) (t : String)
    (h : Coherent env evs)
    (hp : ∃ e ∈ evs, isPerfectOn t e = true) :
    ∃ w, lastScoreOf evs t = some w ∧ 15 ≤ w := by
  obtain ⟨e, hmem, hperf⟩ := hp
  obtain ⟨l, r, heq⟩ := List.append_of_mem hmem
  obtain ⟨mt, kw, tg, old, new, he⟩ : ∃ mt kw tg old new,
      e = ScoreEvent.hit mt kw tg old new ∧ mt = ExactType.perfect ∧ tg = t := by
    cases e with
    | hit mt kw tg old new =>
      cases mt with
      | perfect => exact ⟨_, _, _, _, _, rfl, rfl, of_decide_eq_true hperf⟩
      | grammaticalVariation => cases hperf
      | keywordInTag => cases hperf
      | tagInKeyword => cases hperf
    | fuzzy kw tg sim sc => cases hperf
  obtain ⟨he, hmt, htg⟩ := he
  rw [he] at heq
  have hok := coherent_decomp env evs l r _ h heq
  have hsplit := coherentAux_append env (l ++ [ScoreEvent.hit mt kw tg old new]) [] r
    (by rw [List.append_assoc, List.singleton_append, ← heq]; simpa using h)
  have hprefix := coherentAux_append env l [] [ScoreEvent.hit mt kw tg old new]
    (by simpa using (coherentAux_append env (l ++ [ScoreEvent.hit mt kw tg old new]) [] r
      (by rw [List.append_assoc, List.singleton_append, ← heq]; simpa using h)).1)
  have hold : 0 ≤ old := by
    rw [hok.1, htg]
    cases hlast : lastScoreOf l t with
    | none => simp
    | some x =>
      simp only [Option.getD_some]
      refine coherentAux_last_nonneg env t l [] (by simpa using hprefix.1) ?_ x
        (by simpa using hlast)
      intro v hv
      cases hv
  have hnew : 15 ≤ old + mt.boost := by
    rw [hmt]
    show 15 ≤ old + 15
    linarith
  have hmid : lastScoreOf (l ++ [ScoreEvent.hit mt kw tg old new]) t =
      some (old + mt.boost) := by
    rw [lastScoreOf_snoc, if_pos (by exact htg), hok.2]
    rfl
  have hmono := coherentAux_last_mono env t r (l ++ [ScoreEvent.hit mt kw tg old new])
    (by simpa using hsplit.2) (old + mt.boost) hmid
  rw [List.append_assoc, List.singleton_append, ← heq] at hmono
  obtain ⟨w, hw, hle⟩ := hmono
  exact ⟨w, hw, le_trans hnew hle⟩

theorem coherent_fuzzyOnly_final (env : Env) (evs : List ScoreEvent) (t : String)
    (h : Coherent env evs) (hf : FuzzyOnly evs t)
    (hbound : ∀ k u, env.fuzzSimilarity k u ≤ 100) :
    ∃ w, lastScoreOf evs t = some w ∧ w ≤ 10 := by
  obtain ⟨⟨e1, he1, ht1⟩, hall⟩ := hf
  have hmemf : e1 ∈ evs.filter (fun e => e.tag = t) :=
    List.mem_filter.mpr ⟨he1, by simp [ht1]⟩
  have hne : evs.filter (fun e => e.tag = t) ≠ [] := by
    intro hnil
    rw [hnil] at hmemf
    exact absurd hmemf (List.not_mem_nil e1)
  obtain ⟨e0, he0⟩ := Option.isSome_iff_exists.mp (List.getLast?_isSome.mpr hne)
  have hval : lastScoreOf evs t = some e0.newVal := by
    unfold lastScoreOf
    rw [he0]
    rfl
  have hmem0 : e0 ∈ evs.filter (fun e => e.tag = t) := List.mem_of_getLast?_eq_some he0
  rw [List.mem_filter] at hmem0
  have htag0 : e0.tag = t := of_decide_eq_true hmem0.2
  have hfz : e0.isFuzzy = true := hall e0 hmem0.1 htag0
  obtain ⟨l, r, heq⟩ := List.append_of_mem hmem0.1
  have hok := coherent_decomp env evs l r e0 h heq
  cases e0 with
  | hit mt kw tg old new => cases hfz
  | fuzzy kw tg sim sc =>
    refine ⟨sc, hval, ?_⟩
    have hsc : sc = sim / 10 := hok.2.2.1
    have hsim : sim = env.fuzzSimilarity kw tg := hok.1
    have hb := hbound kw tg
    rw [hsc, hsim]
    linarith

theorem isPerfectOn_hit (t : String) (mt : ExactType) (kw tg : String) (old new : ℚ) :
    isPerfectOn t (ScoreEvent.hit mt kw tg old new) =
      (decide (mt = ExactType.perfect) && decide (tg = t)) := by
  cases mt <;> simp [isPerfectOn]

theorem matchTypeOf_perfect_iff (env : Env) (kw tag : String) :
    matchTypeOf env kw tag = some ExactType.perfect ↔ kw = tag := by
  unfold matchTypeOf
  constructor
  · intro h
    by_cases he : kw = tag
    · exact he
    · rw [if_neg he] at h
      split_ifs at h <;> simp_all
  · intro he
    rw [if_pos he]

theorem scoreStepTag_perfect_count (env : Env) (kw : String) (st : SState) (tag t : String) :
    ((scoreStepTag env kw st tag).2.filter (isPerfectOn t)).length =
      (st.2.filter (isPerfectOn t)).length + (if kw = t ∧ tag = t then 1 else 0) := by
  unfold scoreStepTag
  cases hmt : matchTypeOf env kw tag with
  | none =>
    have hne : ¬ (kw = tag) := by
      intro he
      rw [(matchTypeOf_perfect_iff env kw tag).mpr he] at hmt
      cases hmt
    have hc : ¬ (kw = t ∧ tag = t) := by
      intro hp
      exact hne (hp.1.trans hp.2.symm)
    simp [hc]
  | some mt =>
    simp only
    rw [List.filter_append, List.length_append]
    by_cases hc : kw = t ∧ tag = t
    · have hkt : kw = tag := hc.1.trans hc.2.symm
      have hp : mt = ExactType.perfect := by
        have h2 := (matchTypeOf_perfect_iff env kw tag).mpr hkt
        rw [hmt] at h2
        exact Option.some.inj h2
      simp [List.filter_cons, isPerfectOn_hit, hp, hc.2, hc]
    · have hfalse : isPerfectOn t (ScoreEvent.hit mt kw tag ((mapGet st.1 tag).getD 0)
          ((mapGet st.1 tag).getD 0 + mt.boost)) = false := by
        rw [isPerfectOn_hit]
        by_cases hp : mt = ExactType.perfect
        · have hkt : kw = tag := (matchTypeOf_perfect_iff env kw tag).mp (by rw [hmt, hp])
          have ht2 : ¬ tag = t := fun h2 => hc ⟨hkt.trans h2, h2⟩
          simp [ht2]
        · simp [hp]
      simp [List.filter_cons, hfalse, hc]

theorem fuzzyStepTag_perfect_count (env : Env) (kw : String) (st : SState) (tag t : String) :
    ((fuzzyStepTag env kw st tag).2.filter (isPerfectOn t)).length =
      (st.2.filter (isPerfectOn t)).length := by
  unfold fuzzyStepTag
  cases hno : mapGet st.1 tag with
  | some v => rw [if_pos (by rfl)]
  | none =>
    rw [if_neg (by simp)]
    by_cases h80 : 80 ≤ env.fuzzSimilarity kw tag
    · rw [if_pos h80]
      simp [List.filter_append, List.filter_cons, isPerfectOn]
    · rw [if_neg h80]

theorem corpusFoldExact_perfect_count (env : Env) (kw t : String) :
    ∀ (corpus : List String) (st : SState),
      (((corpus.foldl (scoreStepTag env kw) st).2).filter (isPerfectOn t)).length =
        (st.2.filter (isPerfectOn t)).length + (if kw = t then corpus.count t else 0) := by
  intro corpus
  induction corpus with
  | nil => intro st; simp
  | cons a rest ih =>
    intro st
    rw [List.foldl_cons, ih, scoreStepTag_perfect_count]
    by_cases hk : kw = t
    · by_cases ha : a = t
      · simp only [hk, ha, and_self, if_true, List.count_cons, beq_self_eq_true, if_pos]
        omega
      · have hc : ¬ (kw = t ∧ a = t) := fun h2 => ha h2.2
        simp [hc, hk, List.count_cons, ha]
    · have hc : ¬ (kw = t ∧ a = t) := fun h2 => hk h2.1
      simp [hc, hk]

theorem corpusFoldFuzzy_perfect_count (env : Env) (kw t : String) :
    ∀ (corpus : List String) (st : SState),
      (((corpus.foldl (fuzzyStepTag env kw) st).2).filter (isPerfectOn t)).length =
        (st.2.filter (isPerfectOn t)).length := by
  intro corpus
  induction corpus with
  | nil => intro st; rfl
  | cons a rest ih =>
    intro st
    rw [List.foldl_cons, ih, fuzzyStepTag_perfect_count]

theorem scoreKeyword_perfect_count (env : Env) (corpus : List String) (st : SState)
    (kw t : String) :
    ((scoreKeyword env corpus st kw).2.filter (isPerfectOn t)).length =
      (st.2.filter (isPerfectOn t)).length + (if kw = t then corpus.count t else 0) := by
  unfold scoreKeyword
  rw [corpusFoldFuzzy_perfect_count, corpusFoldExact_perfect_count]

theorem keywordsFold_perfect_count (env : Env) (corpus : List String) (t : String) :
    ∀ (keywords : List String) (st : SState),
      (((keywords.foldl (scoreKeyword env corpus) st).2).filter (isPerfectOn t)).length =
        (st.2.filter (isPerfectOn t)).length + keywords.count t * corpus.count t := by
  intro keywords
  induction keywords with
  | nil => intro st; simp
  | cons kw rest ih =>
    intro st
    rw [List.foldl_cons, ih, scoreKeyword_perfect_count]
    by_cases hk : kw = t
    · simp only [hk, if_true, List.count_cons, beq_self_eq_true, if_pos]
      ring
    · have hb : ¬ (kw == t) = true := by simp [hk]
      simp only [hk, if_false, List.count_cons, hb]
      simp

theorem tagScoresTrace_perfect_count (env : Env) (keywords corpus : List String)
    (t : String) :
    (((tagScoresTrace env keywords corpus).2).filter (isPerfectOn t)).length =
      keywords.count t * corpus.count t := by
  unfold tagScoresTrace
  rw [keywordsFold_perfect_count]
  simp

theorem scoreDescLE_trans (a b c : String × ℚ) (hab : scoreDescLE a b = true)
    (hbc : scoreDescLE b c = true) : scoreDescLE a c = true := by
  unfold scoreDescLE at hab hbc ⊢
  simp only [decide_eq_true_eq] at hab hbc ⊢
  linarith

theorem scoreDescLE_total (a b : String × ℚ) :
    (scoreDescLE a b || scoreDescLE b a) = true := by
  unfold scoreDescLE
  rcases le_total b.2 a.2 with h | h <;> simp [h]

theorem foldl_id {α β : Type} (f : β → α → β) (hf : ∀ st a, f st a = st) :
    ∀ (l : List α) (st : β), l.foldl f st = st := by
  intro l
  induction l with
  | nil => intro st; rfl
  | cons x rest ih =>
    intro st
    rw [List.foldl_cons, hf]
    exact ih st

theorem tagScoresTrace_empty_corpus (env : Env) (keywords : List String) :
    tagScoresTrace env keywords [] = ([], []) := by
  unfold tagScoresTrace
  exact foldl_id _ (fun st kw => rfl) keywords ([], [])

theorem scorer_result_empty_corpus (env : Env) (title description : String)
    (teamId : Option String) (hc : fetchExistingTags env teamId = []) :
    findTagsByKeywordsWithScores env title description teamId = [] := by
  unfold findTagsByKeywordsWithScores
  rw [hc, tagScoresTrace_empty_corpus]
  simp

/-- C7: in every run of the lexical scorer, a fuzzy-similarity score is
assigned to a given tag at most once per request, and only when no match
of any kind has already put that tag in the score map (no event for that
tag precedes the fuzzy event in the trace); every accumulating-match
event adds its boost to the tag's previously accumulated score; and each
tag appears at most once in the resulting score map. -/
theorem scorer_trace_invariants (env : Env) (title description : String)
    (teamId : Option String) :
    (∀ l e r, (scorerState env title description teamId).2 = l ++ e :: r →
        e.isFuzzy = true → ∀ x ∈ l, x.tag ≠ e.tag) ∧
    (∀ t, ((scorerState env title description teamId).2.filter (isFuzzyOn t)).length ≤ 1) ∧
    (∀ l mt kw tg old new r,
        (scorerState env title description teamId).2 =
          l ++ ScoreEvent.hit mt kw tg old new :: r →
        old = (lastScoreOf l tg).getD 0 ∧ new = old + mt.boost) ∧
    ((scorerState env title description teamId).1.map Prod.fst).Nodup := by
  have hinv : StInv env (scorerState env title description teamId) := by
    unfold scorerState
    exact stInv_tagScoresTrace env _ _
  obtain ⟨hnd, hget, hcoh⟩ := hinv
  refine ⟨?_, ?_, ?_, hnd⟩
  · intro l e r heq hf x hx
    have hok := coherent_decomp env _ l r e hcoh heq
    cases e with
    | hit mt kw tg old new => cases hf
    | fuzzy kw tg sim sc => exact hok.2.2.2 x hx
  · intro t
    exact coherentAux_fuzzy_count env t _ [] hcoh
  · intro l mt kw tg old new r heq
    have hok := coherent_decomp env _ l r _ hcoh heq
    exact ⟨hok.1, hok.2⟩

/-- Witness for `scorer_trace_invariants`: the Scenario A run (title
"React Hooks Tutorial", corpus ["react", "hooks"]) has a duplicate-free
score map. -/
theorem scorer_trace_invariants_witness :
    ((scorerState envA "React Hooks Tutorial" "" (some "T")).1.map Prod.fst).Nodup :=
  (scorer_trace_invariants envA "React Hooks Tutorial" "" (some "T")).2.2.2

/-- C9: when the Tag Corpus Store call throws for the given team, or when
`teamId` is absent, the lexical scorer proceeds with an empty corpus and
returns the empty list; no exception escapes (the catch block replaces
the corpus by the empty array). -/
theorem scorer_empty_on_store_failure (env : Env) (title description tid msg : String)
    (h : env.getExistingTags tid = .error msg) :
    findTagsByKeywordsWithScores env title description (some tid) = [] ∧
    findTagsByKeywordsWithScores env title description none = [] := by
  constructor
  · refine scorer_result_empty_corpus env title description (some tid) ?_
    simp [fetchExistingTags, h]
  · exact scorer_result_empty_corpus env title description none rfl

/-- Witness for `scorer_empty_on_store_failure`: a concrete store that
throws for team "T1" makes the scorer return the empty list. -/
theorem scorer_empty_on_store_failure_witness :
    envStoreDown.getExistingTags "T1" = .error "database unavailable" ∧
    findTagsByKeywordsWithScores envStoreDown "React Hooks" "" (some "T1") = [] :=
  ⟨rfl, (scorer_empty_on_store_failure envStoreDown "React Hooks" "" "T1"
    "database unavailable" rfl).1⟩

theorem findTags_eq (env : Env) (title description : String) (teamId : Option String) :
    findTagsByKeywordsWithScores env title description teamId =
      ((scorerState env title description teamId).1.mergeSort scoreDescLE).take 6 := rfl

theorem mem_of_mem_findTags (env : Env) (title description : String)
    (teamId : Option String) (p : String × ℚ)
    (h : p ∈ findTagsByKeywordsWithScores env title description teamId) :
    p ∈ (scorerState env title description teamId).1 := by
  rw [findTags_eq] at h
  exact (List.mergeSort_perm (scorerState env title description teamId).1
    scoreDescLE).mem_iff.mp (List.mem_of_mem_take h)

theorem findTags_score_eq_lastScore (env : Env) (title description : String)
    (teamId : Option String) (p : String × ℚ)
    (h : p ∈ findTagsByKeywordsWithScores env title description teamId) :
    lastScoreOf (scorerState env title description teamId).2 p.1 = some p.2 := by
  have hinv : StInv env (scorerState env title description teamId) := by
    unfold scorerState
    exact stInv_tagScoresTrace env _ _
  obtain ⟨hnd, hget, hcoh⟩ := hinv
  have hm := mem_of_mem_findTags env title description teamId p h
  have hg : mapGet (scorerState env title description teamId).1 p.1 = some p.2 := by
    have hp : (p.1, p.2) ∈ (scorerState env title description teamId).1 := by
      simpa using hm
    exact mapGet_of_mem_nodup p.1 p.2 _ hnd hp
  rw [← hget p.1]
  exact hg

theorem findTags_sorted (env : Env) (title description : String) (teamId : Option String) :
    (findTagsByKeywordsWithScores env title description teamId).Pairwise
      (fun a b => b.2 ≤ a.2) := by
  rw [findTags_eq]
  have hs := List.sorted_mergeSort (fun a b c => scoreDescLE_trans a b c)
    (fun a b => scoreDescLE_total a b) (scorerState env title description teamId).1
  have hs2 := hs.sublist (List.take_sublist 6 _)
  exact hs2.imp (fun hab => of_decide_eq_true hab)

/-- C8: each keyword occurrence equal to an existing tag contributes +15
to that tag exactly once (with a duplicate-free corpus); the scorer
returns at most 6 pairs, sorted by score descending, with ties kept in
encounter order (stable sort); and a tag with a perfect-match
contribution has score ≥ 15, strictly above any fuzzy-only tag (score ≤
10 since `fuzz.ratio` is at most 100), so it always ranks strictly above
it in the returned list. -/
theorem scorer_perfect_ranking (env : Env) (title description : String)
    (teamId : Option String)
    (hnd : (fetchExistingTags env teamId).Nodup)
    (hbound : ∀ k u, env.fuzzSimilarity k u ≤ 100) :
    (∀ t, t ∈ fetchExistingTags env teamId →
      ((scorerState env title description teamId).2.filter (isPerfectOn t)).length =
        (extractKeywords (title ++ " " ++ description)).count t) ∧
    (∀ l kw tg old new r,
      (scorerState env title description teamId).2 =
        l ++ ScoreEvent.hit ExactType.perfect kw tg old new :: r → new = old + 15) ∧
    (findTagsByKeywordsWithScores env title description teamId).length ≤ 6 ∧
    (findTagsByKeywordsWithScores env title description teamId).Pairwise
      (fun a b => b.2 ≤ a.2) ∧
    (∀ a b, List.Sublist [a, b] (scorerState env title description teamId).1 →
      b.2 ≤ a.2 →
      List.Sublist [a, b]
        ((scorerState env title description teamId).1.mergeSort scoreDescLE)) ∧
    (∀ p q, p ∈ findTagsByKeywordsWithScores env title description teamId →
      q ∈ findTagsByKeywordsWithScores env title description teamId →
      (∃ e ∈ (scorerState env title description teamId).2, isPerfectOn p.1 e = true) →
      FuzzyOnly (scorerState env title description teamId).2 q.1 →
      15 ≤ p.2 ∧ q.2 < p.2 ∧
      (∀ i j, (findTagsByKeywordsWithScores env title description teamId).get? i = some p →
        (findTagsByKeywordsWithScores env title description teamId).get? j = some q →
        i < j)) := by
  have hcoh : Coherent env (scorerState env title description teamId).2 := by
    have hinv : StInv env (scorerState env title description teamId) := by
      unfold scorerState
      exact stInv_tagScoresTrace env _ _
    exact hinv.2.2
  refine ⟨?_, ?_, ?_, findTags_sorted env title description teamId, ?_, ?_⟩
  · intro t ht
    have hc : (fetchExistingTags env teamId).count t = 1 :=
      List.count_eq_one_of_mem hnd ht
    have h2 : ((scorerState env title description teamId).2.filter (isPerfectOn t)).length =
        (extractKeywords (title ++ " " ++ description)).count t *
          (fetchExistingTags env teamId).count t := by
      unfold scorerState
      exact tagScoresTrace_perfect_count env _ _ t
    rw [h2, hc, Nat.mul_one]
  · intro l kw tg old new r heq
    have hok := coherent_decomp env _ l r _ hcoh heq
    rw [hok.2]
    show old + ExactType.boost ExactType.perfect = old + 15
    norm_num [ExactType.boost]
  · rw [findTags_eq]
    exact List.length_take_le 6 _
  · intro a b hsub hle
    exact List.pair_sublist_mergeSort (fun x y z => scoreDescLE_trans x y z)
      (fun x y => scoreDescLE_total x y) (decide_eq_true hle) hsub
  · intro p q hp hq hperf hfuzz
    have hps := findTags_score_eq_lastScore env title description teamId p hp
    have hqs := findTags_score_eq_lastScore env title description teamId q hq
    obtain ⟨w, hw, h15⟩ := coherent_perfect_final env _ p.1 hcoh hperf
    obtain ⟨w2, hw2, h10⟩ := coherent_fuzzyOnly_final env _ q.1 hcoh hfuzz hbound
    rw [hps] at hw
    rw [hqs] at hw2
    have hp15 : 15 ≤ p.2 := by
      have hpw : p.2 = w := Option.some.inj hw
      rw [hpw]
      exact h15
    have hq10 : q.2 ≤ 10 := by
      have hqw : q.2 = w2 := Option.some.inj hw2
      rw [hqw]
      exact h10
    have hlt : q.2 < p.2 := by linarith
    refine ⟨hp15, hlt, ?_⟩
    intro i j hi hj
    have hsorted := findTags_sorted env title description teamId
    rw [List.pairwise_iff_get] at hsorted
    obtain ⟨hilt, hig⟩ := List.get?_eq_some.mp hi
    obtain ⟨hjlt, hjg⟩ := List.get?_eq_some.mp hj
    rcases Nat.lt_trichotomy i j with h | h | h
    · exact h
    · exfalso
      rw [h] at hi
      rw [hi] at hj
      have hpq : p = q := Option.some.inj hj
      rw [hpq] at hlt
      exact absurd hlt (lt_irrefl _)
    · exfalso
      have hle2 := hsorted ⟨j, hjlt⟩ ⟨i, hilt⟩ (Fin.mk_lt_mk.mpr h)
      rw [hig, hjg] at hle2
      linarith

/-- C4 (counterexample): a draft reply whose text contains a bracketed
region that is not valid JSON does NOT make the stage return the empty
list: `JSON.parse` throws inside the `try` block, the error is wrapped
and rethrown, so the call is fatal. -/
theorem draft_unparsable_bracket_counterexample :
    envC4.draftCall = CallOutcome.text "result: [not valid json]" ∧
    bracketMatch "result: [not valid json]" = some "[not valid json]" ∧
    envC4.jsonParse "[not valid json]" = none ∧
    generateWithLLM envC4 = .error "Failed to generate tags: JSON parse error" ∧
    generateWithLLM envC4 ≠ .ok [] := by
  refine ⟨rfl, by decide, rfl, by decide, by decide⟩

/-- C4 (amended): in the draft stage a reply text without any bracketed
region yields the empty list non-fatally, and a transport/service error
of the call itself is fatal; but a bracketed region that `JSON.parse`
rejects is also fatal (wrapped and rethrown), not an empty list. -/
theorem draft_parse_failure_semantics (env : Env) :
    (∀ t, env.draftCall = .text t → bracketMatch t = none →
      generateWithLLM env = .ok []) ∧
    (env.draftCall = .throw → ∃ e, generateWithLLM env = .error e) ∧
    (∀ t r, env.draftCall = .text t → bracketMatch t = some r →
      env.jsonParse r = none → ∃ e, generateWithLLM env = .error e) := by
  refine ⟨?_, ?_, ?_⟩
  · intro t ht hb
    simp only [generateWithLLM, ht, hb]
  · intro ht
    simp only [generateWithLLM, ht]
    exact ⟨_, rfl⟩
  · intro t r ht hb hj
    simp only [generateWithLLM, ht, hb, hj]
    exact ⟨_, rfl⟩

/-- Witness for `draft_parse_failure_semantics`: the Scenario C reply
"Sorry, I cannot help" has no bracketed region and yields `[]`. -/
theorem draft_parse_failure_semantics_witness :
    generateWithLLM envNoBracket = .ok [] :=
  (draft_parse_failure_semantics envNoBracket).1 "Sorry, I cannot help" rfl (by decide)

/-- C3 (counterexample): when the specificity filter's service reply is a
syntactically valid but EMPTY array and some draft tag is protected, the
stage does not fall back to the original `draftTags`: it returns just the
protected tags. -/
theorem filter_empty_array_counterexample :
    envC3.filterCall = CallOutcome.text "[]" ∧
    envC3.jsonParse "[]" = some [] ∧
    filterTagsBySpecificity envC3 ["react", "misc"] ["react"] = ["react"] ∧
    filterTagsBySpecificity envC3 ["react", "misc"] ["react"] ≠ ["react", "misc"] := by
  refine ⟨rfl, rfl, by decide, by decide⟩

theorem filterTags_ne_nil (env : Env) (tags existingMatches : List String)
    (h : tags ≠ []) :
    filterTagsBySpecificity env tags existingMatches ≠ [] := by
  unfold filterTagsBySpecificity
  split
  · exact h
  · split
    · exact h
    · split
      · exact h
      · exact h
      · exact h
      · exact h
      · split
        · exact h
        · split
          · exact h
          · split
            · exact h
            · rename_i hempty
              intro hnil
              rw [hnil] at hempty
              exact hempty rfl

/-- C3 (amended): for non-empty `draftTags`, every failure of the second
service call (throw, missing body, unparsable body, missing text, no
bracketed region, bracketed region rejected by `JSON.parse`) returns the
input unchanged, and the filter never returns an empty list; but a
syntactically valid EMPTY array does not restore the full input: the
result is the protected tags when any exist, and only falls back to the
input when the protected set is empty as well. -/
theorem filter_failure_semantics (env : Env) (tags existingMatches : List String)
    (h : tags ≠ []) :
    (FilterCallFailed env → filterTagsBySpecificity env tags existingMatches = tags) ∧
    filterTagsBySpecificity env tags existingMatches ≠ [] ∧
    (∀ t r, env.filterCall = .text t → bracketMatch t = some r →
      env.jsonParse r = some [] →
      filterTagsBySpecificity env tags existingMatches =
        (if tags.filter (fun x => existingMatches.contains x) = [] then tags
         else tags.filter (fun x => existingMatches.contains x))) := by
  have hne : tags.isEmpty = false := by
    cases tags with
    | nil => exact absurd rfl h
    | cons a rest => rfl
  refine ⟨?_, filterTags_ne_nil env tags existingMatches h, ?_⟩
  · intro hfail
    unfold filterTagsBySpecificity
    rw [hne]
    simp only [Bool.false_eq_true, if_false]
    by_cases hc : (tags.filter (fun t => !existingMatches.contains t)).isEmpty = true
    · rw [if_pos hc]
    · rw [if_neg hc]
      rcases hfail with h1 | h1 | h1 | h1 | ⟨t, ht, hb⟩ | ⟨t, r, ht, hb, hj⟩
      · simp only [h1]
      · simp only [h1]
      · simp only [h1]
      · simp only [h1]
      · simp only [ht, hb]
      · simp only [ht, hb, hj]
  · intro t r ht hb hj
    unfold filterTagsBySpecificity
    rw [hne]
    simp only [Bool.false_eq_true, if_false]
    by_cases hc : (tags.filter (fun t => !existingMatches.contains t)).isEmpty = true
    · rw [if_pos hc]
      have hall : tags.filter (fun x => existingMatches.contains x) = tags := by
        rw [List.filter_eq_self]
        intro x hx
        have h2 := List.filter_eq_nil_iff.mp (List.isEmpty_iff.mp hc) x hx
        cases h4 : existingMatches.contains x with
        | true => rfl
        | false => exact absurd (by rw [h4]; rfl) h2
      rw [hall]
      rw [if_neg h]
    · rw [if_neg hc]
      simp only [ht, hb, hj, jsToStrings, List.filterMap_nil, List.append_nil]
      by_cases hp : tags.filter (fun x => existingMatches.contains x) = []
      · simp [hp]
      · have hpe : (tags.filter (fun x => existingMatches.contains x)).isEmpty = false := by
          cases hq : tags.filter (fun x => existingMatches.contains x) with
          | nil => exact absurd hq hp
          | cons a rest => rfl
        simp [hpe, hp]

/-- Witness for `filter_failure_semantics`: a throwing filter call leaves
a non-empty input unchanged and non-empty. -/
theorem filter_failure_semantics_witness :
    filterTagsBySpecificity baseEnv ["react"] [] = ["react"] ∧
    filterTagsBySpecificity baseEnv ["react"] [] ≠ [] :=
  ⟨(filter_failure_semantics baseEnv ["react"] [] (by decide)).1 (Or.inl rfl),
   (filter_failure_semantics baseEnv ["react"] [] (by decide)).2.1⟩

theorem jsSliceTo_length_le (xs : List String) (e : Int) :
    (jsSliceTo xs e).length ≤ xs.length := by
  unfold jsSliceTo
  split
  · rw [List.length_take]
    omega
  · rw [List.length_take]
    omega

theorem jsSliceTo_length_le_of_nonneg (xs : List String) (e : Int) (h : 0 ≤ e) :
    (jsSliceTo xs e).length ≤ e.toNat := by
  unfold jsSliceTo
  rw [if_pos h, List.length_take]
  omega

theorem mem_of_mem_jsSliceTo (a : String) (xs : List String) (e : Int)
    (h : a ∈ jsSliceTo xs e) : a ∈ xs := by
  unfold jsSliceTo at h
  split at h
  · exact List.mem_of_mem_take h
  · exact List.mem_of_mem_take h

theorem addHigh_nil (cur : List String) : addHighScoringExistingTags cur [] = cur := by
  unfold addHighScoringExistingTags
  rw [List.filter_nil, List.filter_nil, List.mergeSort_nil, List.map_nil]
  unfold jsSliceTo
  split
  · simp
  · simp

/-- C2 (counterexample): with seven `currentTags` the reconciler returns
8 tags, not at most 6: the slice end `6 - 7 = -1` makes the JavaScript
`slice(0, -1)` keep all but the LAST high-scoring missing tag instead of
none, and the seven current tags are returned wholesale on top. -/
theorem reconcile_cap_counterexample :
    (addHighScoringExistingTags ["a", "b", "c", "d", "e", "f", "g"]
      [("x", 20), ("y", 18)]).length = 8 ∧
    ¬ (addHighScoringExistingTags ["a", "b", "c", "d", "e", "f", "g"]
      [("x", 20), ("y", 18)]).length ≤ 6 := by
  have h8 : (addHighScoringExistingTags ["a", "b", "c", "d", "e", "f", "g"]
      [("x", 20), ("y", 18)]).length = 8 := by
    unfold addHighScoringExistingTags
    have hfil : (([(("x" : String), (20 : ℚ)), ("y", 18)].filter
        (fun p => decide (15 ≤ p.2))).filter
        (fun p => !(["a", "b", "c", "d", "e", "f", "g"] : List String).contains p.1)) =
        [("x", 20), ("y", 18)] := by decide
    rw [hfil, List.mergeSort_of_sorted (by decide)]
    decide
  exact ⟨h8, by rw [h8]; decide⟩

/-- C2 (amended): provided `currentTags` itself has at most 6 entries,
the reconciler returns at most 6 tags and appends exactly the
existing-corpus tags with score ≥ 15 that are not already present, in
stable descending score order, as many as fit under the cap of 6.  (For
more than 6 current tags the negative JavaScript slice index breaks the
cap; see the counterexample.) -/
theorem reconcile_cap (cur : List String) (scored : List (String × ℚ))
    (h : cur.length ≤ 6) :
    (addHighScoringExistingTags cur scored).length ≤ 6 ∧
    addHighScoringExistingTags cur scored =
      cur ++ ((((scored.filter (fun p => decide (15 ≤ p.2))).filter
          (fun p => !cur.contains p.1)).mergeSort scoreDescLE).map Prod.fst).take
        (6 - cur.length) := by
  have hslice : ∀ L : List String,
      jsSliceTo L (6 - (cur.length : Int)) = L.take (6 - cur.length) := by
    intro L
    unfold jsSliceTo
    rw [if_pos (by omega)]
    congr 1
    omega
  have heq : addHighScoringExistingTags cur scored =
      cur ++ ((((scored.filter (fun p => decide (15 ≤ p.2))).filter
          (fun p => !cur.contains p.1)).mergeSort scoreDescLE).map Prod.fst).take
        (6 - cur.length) := by
    unfold addHighScoringExistingTags
    rw [hslice]
  refine ⟨?_, heq⟩
  rw [heq, List.length_append, List.length_take]
  omega

/-- Witness for `reconcile_cap`: one current tag plus one high-scoring
missing corpus tag stay within the cap. -/
theorem reconcile_cap_witness :
    ((["react"] : List String).length ≤ 6) ∧
    (addHighScoringExistingTags ["react"] [("hooks", 15)]).length ≤ 6 :=
  ⟨by decide, (reconcile_cap ["react"] [("hooks", 15)] (by decide)).1⟩

/-- C10: a tag whose only contribution in the lexical score map is a
fuzzy match has score at most 10 (`fuzz.ratio` ≤ 100, divided by 10),
strictly below the reconciler's high-score threshold of 15, so the
hybrid reconciler never force-includes it: if such a tag appears in the
reconciler's output it was already among the current tags. -/
theorem fuzzy_only_never_forced (env : Env) (title description : String)
    (teamId : Option String) (t : String) (cur : List String)
    (hbound : ∀ k u, env.fuzzSimilarity k u ≤ 100)
    (honly : FuzzyOnly (scorerState env title description teamId).2 t)
    (hmem : t ∈ addHighScoringExistingTags cur
      (findTagsByKeywordsWithScores env title description teamId)) :
    t ∈ cur := by
  have hcoh : Coherent env (scorerState env title description teamId).2 := by
    have hinv : StInv env (scorerState env title description teamId) := by
      unfold scorerState
      exact stInv_tagScoresTrace env _ _
    exact hinv.2.2
  unfold addHighScoringExistingTags at hmem
  rcases List.mem_append.mp hmem with hl | hr
  · exact hl
  · exfalso
    have h2 := mem_of_mem_jsSliceTo t _ _ hr
    obtain ⟨p, hp, hpt⟩ := List.mem_map.mp h2
    have hp2 : p ∈ ((findTagsByKeywordsWithScores env title description teamId).filter
        (fun p => decide (15 ≤ p.2))).filter (fun p => !cur.contains p.1) :=
      (List.mergeSort_perm _ scoreDescLE).mem_iff.mp hp
    have hp3 := (List.mem_filter.mp hp2).1
    have hp4 := (List.mem_filter.mp hp3).1
    have hp15 : (15 : ℚ) ≤ p.2 := by
      have := (List.mem_filter.mp hp3).2
      simpa using this
    have hlast := findTags_score_eq_lastScore env title description teamId p hp4
    rw [hpt] at hlast
    obtain ⟨w, hw, h10⟩ := coherent_fuzzyOnly_final env _ t hcoh honly hbound
    rw [hlast] at hw
    have hpw : p.2 = w := Option.some.inj hw
    rw [hpw] at hp15
    linarith

/-- Witness for `fuzzy_only_never_forced`: keyword "react" against
corpus tag "reakt" matches only fuzzily (similarity 85, score 8.5); the
reconciler output contains "reakt" only because it was already current. -/
theorem fuzzy_only_never_forced_witness :
    FuzzyOnly (scorerState envFuzzy "react" "" (some "T")).2 "reakt" ∧
    "reakt" ∈ addHighScoringExistingTags ["reakt"]
      (findTagsByKeywordsWithScores envFuzzy "react" "" (some "T")) ∧
    "reakt" ∈ (["reakt"] : List String) := by
  have hb : ∀ k u, envFuzzy.fuzzSimilarity k u ≤ 100 := by
    intro k u
    show (if k = "react" ∧ u = "reakt" then (85 : ℚ) else 0) ≤ 100
    split
    · norm_num
    · norm_num
  have hf : FuzzyOnly (scorerState envFuzzy "react" "" (some "T")).2 "reakt" := by
    unfold FuzzyOnly
    decide
  have hm : "reakt" ∈ addHighScoringExistingTags ["reakt"]
      (findTagsByKeywordsWithScores envFuzzy "react" "" (some "T")) := by
    show "reakt" ∈ ["reakt"] ++ jsSliceTo _ _
    exact List.mem_append_left _ (by decide)
  exact ⟨hf, hm, fuzzy_only_never_forced envFuzzy "react" "" (some "T") "reakt" ["reakt"]
    hb hf hm⟩

theorem generateTags_manual (env : Env) (opts : GenOptions) (ms g : List String)
    (hm : opts.manualTags = some ms) (hne : ms.isEmpty = false)
    (hint : generateTagsInternal env opts = .ok g) :
    generateTags env opts = .ok ((ms ++ g).take 8) := by
  unfold generateTags
  simp only [hm, hne, Bool.false_eq_true, if_false, hint]

theorem generateTags_not_manual (env : Env) (opts : GenOptions)
    (hm : opts.manualTags = none ∨ opts.manualTags = some []) :
    generateTags env opts = generateTagsInternal env opts := by
  unfold generateTags
  rcases hm with hm | hm
  · simp only [hm]
  · simp only [hm, List.isEmpty_nil, if_true]

theorem findTags_length_le (env : Env) (title description : String)
    (teamId : Option String) :
    (findTagsByKeywordsWithScores env title description teamId).length ≤ 6 := by
  rw [findTags_eq]
  exact List.length_take_le 6 _

theorem addHigh_length (cur : List String) (scored : List (String × ℚ))
    (hs : scored.length ≤ 6) :
    (addHighScoringExistingTags cur scored).length ≤ cur.length + 6 ∧
    (cur.length ≤ 6 → (addHighScoringExistingTags cur scored).length ≤ 6) := by
  unfold addHighScoringExistingTags
  rw [List.length_append]
  have hlen : ((((scored.filter (fun p => decide (15 ≤ p.2))).filter
      (fun p => !cur.contains p.1)).mergeSort scoreDescLE).map Prod.fst).length ≤
      scored.length := by
    rw [List.length_map, List.length_mergeSort]
    calc ((scored.filter (fun p => decide (15 ≤ p.2))).filter
          (fun p => !cur.contains p.1)).length
        ≤ (scored.filter (fun p => decide (15 ≤ p.2))).length :=
          List.length_filter_le _ _
      _ ≤ scored.length := List.length_filter_le _ _
  constructor
  · have h1 := jsSliceTo_length_le
      ((((scored.filter (fun p => decide (15 ≤ p.2))).filter
        (fun p => !cur.contains p.1)).mergeSort scoreDescLE).map Prod.fst)
      (6 - (cur.length : Int))
    omega
  · intro hc
    have h2 := jsSliceTo_length_le_of_nonneg
      ((((scored.filter (fun p => decide (15 ≤ p.2))).filter
        (fun p => !cur.contains p.1)).mergeSort scoreDescLE).map Prod.fst)
      (6 - (cur.length : Int)) (by omega)
    omega

theorem generateTagsInternal_envC1 : generateTagsInternal envC1 optsC1 = .ok ["react"] := by
  unfold generateTagsInternal
  have hllm : generateWithLLM envC1 = .ok ["react"] := by decide
  have hscored : findTagsByKeywordsWithScores envC1 "" "" none = [] :=
    scorer_result_empty_corpus envC1 "" "" none rfl
  simp only [hllm, optsC1, Option.getD_none, hscored, List.map_nil, addHigh_nil]
  decide

theorem generateTagsInternal_envC5 :
    generateTagsInternal envC5 optsPlain = .ok ["t1", "t2", "t3", "t4", "t5", "t6", "t7"] := by
  unfold generateTagsInternal
  have hllm : generateWithLLM envC5 = .ok ["t1", "t2", "t3", "t4", "t5", "t6", "t7"] := by
    decide
  have hscored : findTagsByKeywordsWithScores envC5 "" "" none = [] :=
    scorer_result_empty_corpus envC5 "" "" none rfl
  simp only [hllm, optsPlain, Option.getD_none, hscored, List.map_nil, addHigh_nil]
  decide

/-- C1 (counterexample): with manual tag "React" and generated tag
"react" the output keeps BOTH entries — `generateTags` concatenates and
slices to 8 without any deduplication, so the pair that is equal under
the normalized (lowercased, trimmed) form is not collapsed into one. -/
theorem manual_tags_no_dedup_counterexample :
    generateTags envC1 optsC1 = .ok ["React", "react"] ∧
    strTrim (strLower "React") = strTrim (strLower "react") ∧
    (["React", "react"] : List String).length = 2 := by
  refine ⟨?_, by decide, by decide⟩
  rw [generateTags_manual envC1 optsC1 ["React"] ["react"] rfl rfl generateTagsInternal_envC1]
  decide

/-- C1 (amended): with non-empty `manualTags` the result is exactly
`manualTags ++ generated` truncated to 8, with NO deduplication of any
kind; consequently every manual tag appears in the output whenever there
are at most 8 manual tags. -/
theorem manual_tags_included (env : Env) (opts : GenOptions) (ms res : List String)
    (hm : opts.manualTags = some ms) (hne : ms ≠ []) (h8 : ms.length ≤ 8)
    (hok : generateTags env opts = .ok res) :
    (∃ g, generateTagsInternal env opts = .ok g ∧ res = (ms ++ g).take 8) ∧
    ∀ t, t ∈ ms → t ∈ res := by
  have hne2 : ms.isEmpty = false := by
    cases ms with
    | nil => exact absurd rfl hne
    | cons a rest => rfl
  cases hint : generateTagsInternal env opts with
  | error e =>
    exfalso
    unfold generateTags at hok
    simp only [hm, hne2, Bool.false_eq_true, if_false, hint] at hok
    exact Except.noConfusion hok
  | ok g =>
    have heq := generateTags_manual env opts ms g hm hne2 hint
    rw [heq] at hok
    have hres : res = (ms ++ g).take 8 := (Except.ok.inj hok).symm
    refine ⟨⟨g, rfl, hres⟩, ?_⟩
    intro t ht
    rw [hres, List.take_append_eq_append_take]
    refine List.mem_append_left _ ?_
    rw [List.take_of_length_le h8]
    exact ht

/-- Witness for `manual_tags_included`: manual tag "React" with the
generated tag "react": "React" appears in the output. -/
theorem manual_tags_included_witness :
    generateTags envC1 optsC1 = .ok ["React", "react"] ∧
    (∀ t, t ∈ (["React"] : List String) → t ∈ (["React", "react"] : List String)) := by
  have hok : generateTags envC1 optsC1 = .ok ["React", "react"] := by
    rw [generateTags_manual envC1 optsC1 ["React"] ["react"] rfl rfl
      generateTagsInternal_envC1]
    decide
  exact ⟨hok, (manual_tags_included envC1 optsC1 ["React"] ["React", "react"] rfl
    (by decide) (by decide) hok).2⟩

/-- C5 (counterexample): without manual tags `generateTags` can return 7
tags: the draft stage yields 7 tags, the failing filter call passes them
through unchanged, and the reconciler appends nothing — the claimed cap
of 6 does not hold. -/
theorem pipeline_cap_counterexample :
    generateTags envC5 optsPlain = .ok ["t1", "t2", "t3", "t4", "t5", "t6", "t7"] ∧
    optsPlain.manualTags = none ∧
    ¬ ((["t1", "t2", "t3", "t4", "t5", "t6", "t7"] : List String).length ≤ 6) := by
  refine ⟨?_, rfl, by decide⟩
  rw [generateTags_not_manual envC5 optsPlain (Or.inl rfl)]
  exact generateTagsInternal_envC5

/-- C5 (amended): with non-empty manual tags the output has at most 8
entries.  Without manual tags the output is the specificity-filter
stage's list plus at most 6 reconciliation tags, and it has at most 6
entries whenever the filter stage's output has at most 6 entries; the
unconditional cap of 6 claimed for this case does not hold (see the
counterexample). -/
theorem generateTags_length_caps (env : Env) (opts : GenOptions) (res : List String)
    (hok : generateTags env opts = .ok res) :
    (ManualPresent opts → res.length ≤ 8) ∧
    ((opts.manualTags = none ∨ opts.manualTags = some []) →
      ∃ f, pipelineFilteredTags env opts = .ok f ∧
        res.length ≤ f.length + 6 ∧ (f.length ≤ 6 → res.length ≤ 6)) := by
  constructor
  · intro hman
    obtain ⟨ms, hm, hmne⟩ := hman
    have hne2 : ms.isEmpty = false := by
      cases ms with
      | nil => exact absurd rfl hmne
      | cons a rest => rfl
    cases hint : generateTagsInternal env opts with
    | error e =>
      exfalso
      unfold generateTags at hok
      simp only [hm, hne2, Bool.false_eq_true, if_false, hint] at hok
      exact Except.noConfusion hok
    | ok g =>
      have heq := generateTags_manual env opts ms g hm hne2 hint
      rw [heq] at hok
      have hres : res = (ms ++ g).take 8 := (Except.ok.inj hok).symm
      rw [hres, List.length_take]
      omega
  · intro hm
    rw [generateTags_not_manual env opts hm] at hok
    unfold generateTagsInternal at hok
    cases hg : generateWithLLM env with
    | error e =>
      exfalso
      simp only [hg] at hok
      exact Except.noConfusion hok
    | ok initialTags =>
      simp only [hg] at hok
      have hres := (Except.ok.inj hok).symm
      refine ⟨filterTagsBySpecificity env initialTags
        ((findTagsByKeywordsWithScores env (opts.title.getD "")
          (opts.description.getD "") opts.teamId).map Prod.fst), ?_, ?_, ?_⟩
      · unfold pipelineFilteredTags
        rw [hg]
        rfl
      · rw [hres]
        exact (addHigh_length _ _ (findTags_length_le env _ _ _)).1
      · intro hf
        rw [hres]
        exact (addHigh_length _ _ (findTags_length_le env _ _ _)).2 hf

/-- Witness for `generateTags_length_caps`: manual tag "m" with a draft
reply containing no brackets yields exactly ["m"], within the cap of 8. -/
theorem generateTags_length_caps_witness :
    generateTags envNoBracket optsManualM = .ok ["m"] ∧
    (["m"] : List String).length ≤ 8 := by
  have hint : generateTagsInternal envNoBracket optsManualM = .ok [] := by
    unfold generateTagsInternal
    have hllm : generateWithLLM envNoBracket = .ok [] := by decide
    have hscored : findTagsByKeywordsWithScores envNoBracket "" "" none = [] :=
      scorer_result_empty_corpus envNoBracket "" "" none rfl
    simp only [hllm, optsManualM, Option.getD_none, hscored, List.map_nil, addHigh_nil]
    decide
  have hok : generateTags envNoBracket optsManualM = .ok ["m"] := by
    rw [generateTags_manual envNoBracket optsManualM ["m"] [] rfl rfl hint]
    decide
  exact ⟨hok, (generateTags_length_caps envNoBracket optsManualM ["m"] hok).1
    ⟨["m"], rfl, by decide⟩⟩

section
/- `Rat.add`, `Rat.mul` and `Rat.inv` are `@[irreducible]` in the library,
which blocks `decide`-evaluation of concrete score maps; the kernel
ignores reducibility, so unsealing them locally is sound. -/
attribute [local semireducible] Rat.add Rat.mul Rat.inv

/-- Witness for `scorer_perfect_ranking`: Scenario A.  Title "React Hooks
Tutorial" against corpus ["react", "hooks"]: "react" receives exactly one
perfect contribution, the result is [("react", 15), ("hooks", 15)], and
it is sorted by score descending. -/
theorem scorer_perfect_ranking_witness :
    (fetchExistingTags envA (some "T")).Nodup ∧
    ((scorerState envA "React Hooks Tutorial" "" (some "T")).2.filter
      (isPerfectOn "react")).length =
      (extractKeywords ("React Hooks Tutorial" ++ " " ++ "")).count "react" ∧
    findTagsByKeywordsWithScores envA "React Hooks Tutorial" "" (some "T") =
      [("react", 15), ("hooks", 15)] ∧
    (findTagsByKeywordsWithScores envA "React Hooks Tutorial" "" (some "T")).Pairwise
      (fun a b => b.2 ≤ a.2) := by
  have hb : ∀ k u, envA.fuzzSimilarity k u ≤ 100 := by
    intro k u
    show (0 : ℚ) ≤ 100
    norm_num
  refine ⟨by decide, ?_, ?_, ?_⟩
  · exact (scorer_perfect_ranking envA "React Hooks Tutorial" "" (some "T")
      (by decide) hb).1 "react" (by decide)
  · have hm : (scorerState envA "React Hooks Tutorial" "" (some "T")).1 =
        [("react", (15 : ℚ)), ("hooks", 15)] := by decide
    rw [findTags_eq, hm, List.mergeSort_of_sorted (by decide)]
    decide
  · exact (scorer_perfect_ranking envA "React Hooks Tutorial" "" (some "T")
      (by decide) hb).2.2.2.1

end

/-- C6 (amended): `extractKeywords` lowercases and splits on whitespace,
on every character of the ASCII range slash..underscore (slash, the
digits, colon through at-sign, uppercase letters, square brackets,
backslash, caret, underscore) and on period, comma, bang, question mark,
parentheses and colon — but NOT on the dash — then drops tokens of
length ≤ 2, stop-word tokens and purely numeric tokens; empty input
yields an empty sequence. -/
theorem extractKeywords_split_set (s : String) :
    extractKeywords s = extractKeywordsAmended s ∧
    isSplitChar '-' = false ∧
    extractKeywords "" = [] := by
  exact ⟨extractKeywords_eq_amended s, by decide, by decide⟩

end TagEngine
